import Mathlib

/-!
Verification of the Anti-Unification repository (first-order engine in
`single-order-AU.py`, restricted higher-order engine in `higher-order-AU.py`).
The Python programs are shallowly embedded: terms become inductive types,
the mutable `AUState` counter and the insertion-ordered environment dict
become explicitly threaded values (`Nat` and an association list).
-/

namespace FO

/-- First-order terms of `single-order-AU.py`: `Var`, `Const`, `Func`. -/
inductive FTerm where
  | var : String → FTerm
  | const : String → FTerm
  | func : String → List FTerm → FTerm

mutual

/-- Structural (deep) equality test on first-order terms, modelling Python's
dataclass `==`. -/
def beqT : FTerm → FTerm → Bool
  | .var x, .var y => x == y
  | .const x, .const y => x == y
  | .func s1 a1, .func s2 a2 => s1 == s2 && beqL a1 a2
  | _, _ => false
termination_by t _ => sizeOf t

def beqL : List FTerm → List FTerm → Bool
  | [], [] => true
  | a :: as, b :: bs => beqT a b && beqL as bs
  | _, _ => false
termination_by l _ => sizeOf l

end

mutual

theorem beqT_iff : ∀ (a b : FTerm), beqT a b = true ↔ a = b
  | .var x, .var y => by simp [beqT]
  | .var _, .const _ => by simp [beqT]
  | .var _, .func _ _ => by simp [beqT]
  | .const _, .var _ => by simp [beqT]
  | .const x, .const y => by simp [beqT]
  | .const _, .func _ _ => by simp [beqT]
  | .func _ _, .var _ => by simp [beqT]
  | .func _ _, .const _ => by simp [beqT]
  | .func s1 a1, .func s2 a2 => by
      simp [beqT, beqL_iff a1 a2]
termination_by a _ => sizeOf a

theorem beqL_iff : ∀ (l1 l2 : List FTerm), beqL l1 l2 = true ↔ l1 = l2
  | [], [] => by simp [beqL]
  | [], _ :: _ => by simp [beqL]
  | _ :: _, [] => by simp [beqL]
  | a :: as, b :: bs => by
      simp [beqL, beqT_iff a b, beqL_iff as bs]
termination_by l _ => sizeOf l

end

instance : DecidableEq FTerm := fun a b => decidable_of_iff _ (beqT_iff a b)

/-- The environment: insertion-ordered mapping from generated variable names
to the pair of original subterms (Python `Dict[Var, Tuple[Term, Term]]`,
which preserves insertion order; keys `Var` are determined by their name). -/
abbrev Env := List (String × FTerm × FTerm)

/-- Model of `AUState.fresh_var`: the name `f"X{counter}"`. -/
def xName (i : Nat) : String := "X" ++ Nat.repr i

/-- The "otherwise" branch of `anti_unify` (lines 80-88): scan the
environment in insertion order for an entry whose stored pair equals
`(t1, t2)`; reuse its variable, otherwise mint `X{counter}`, append the new
entry and return the fresh variable. -/
def auMismatch (t1 t2 : FTerm) (c : Nat) (env : Env) : FTerm × Nat × Env :=
  match env.find? (fun e => e.2.1 == t1 && e.2.2 == t2) with
  | some e => (.var e.1, c, env)
  | none => (.var (xName c), c + 1, env ++ [(xName c, t1, t2)])

mutual

/-- Model of `anti_unify(t1, t2, st, env)` of `single-order-AU.py` with the mutable
`AUState` counter and the environment threaded explicitly. -/
def antiUnify (t1 t2 : FTerm) (c : Nat) (env : Env) : FTerm × Nat × Env :=
  if t1 = t2 then (t1, c, env)
  else
    match t1, t2 with
    | .func s1 a1, .func s2 a2 =>
      if s1 = s2 ∧ a1.length = a2.length then
        let r := antiUnifyArgs a1 a2 c env
        (.func s1 r.1, r.2)
      else auMismatch (.func s1 a1) (.func s2 a2) c env
    | u1, u2 => auMismatch u1 u2 c env
termination_by sizeOf t1

/-- The `for a1, a2 in zip(t1.args, t2.args)` loop of `anti_unify` (also the
loop body of `anti_unify_list`): generalize position-wise, threading the
counter and the environment. -/
def antiUnifyArgs : List FTerm → List FTerm → Nat → Env → List FTerm × Nat × Env
  | [], _, c, env => ([], c, env)
  | _ :: _, [], c, env => ([], c, env)
  | a :: as, b :: bs, c, env =>
    let r := antiUnify a b c env
    let r2 := antiUnifyArgs as bs r.2.1 r.2.2
    (r.1 :: r2.1, r2.2)
termination_by l _ _ _ => sizeOf l

end

/-- A top-level call `anti_unify(t1, t2)` with the default arguments
`st=None, env=None`: a fresh counter and an empty environment. -/
def antiUnifyTop (t1 t2 : FTerm) : FTerm × Env :=
  let r := antiUnify t1 t2 0 []
  (r.1, r.2.2)

/-- Model of `anti_unify_list(ts1, ts2)`: raises `ValueError` on a length mismatch
(modelled as `Except.error` with the exact message), otherwise runs the
position-wise loop with one fresh state and one environment. -/
def antiUnifyList (ts1 ts2 : List FTerm) : Except String (List FTerm × Env) :=
  if ts1.length ≠ ts2.length then
    .error "Lists must have same length for anti_unify_list"
  else
    let r := antiUnifyArgs ts1 ts2 0 []
    .ok (r.1, r.2.2)

/-- Dictionary lookup `env[v]` by variable name (keys are pairwise distinct
in every reachable environment, see the invariants below). -/
def envLookup (env : Env) (n : String) : Option (FTerm × FTerm) :=
  (env.find? (fun e => e.1 == n)).map (·.2)

mutual

/-- Substitution of environment entries into a generalization: every
variable that is a key of `env` is replaced by the component of its stored
pair selected by `pick`; other variables and all other structure are kept. -/
def substEnv (pick : FTerm × FTerm → FTerm) (env : Env) : FTerm → FTerm
  | .var n =>
    match envLookup env n with
    | some p => pick p
    | none => .var n
  | .const n => .const n
  | .func s args => .func s (substEnvs pick env args)
termination_by t => sizeOf t

def substEnvs (pick : FTerm × FTerm → FTerm) (env : Env) :
    List FTerm → List FTerm
  | [] => []
  | a :: as => substEnv pick env a :: substEnvs pick env as
termination_by l => sizeOf l

end

/-- Substituting each environment variable by the left component of its
stored pair. -/
def substEnvL (env : Env) : FTerm → FTerm := substEnv Prod.fst env

/-- Substituting each environment variable by the right component of its
stored pair. -/
def substEnvR (env : Env) : FTerm → FTerm := substEnv Prod.snd env

end FO

namespace HO

/-- Higher-order terms of `higher-order-AU.py`: `Var`, `Const`, binary
`App`, and `Lam` with a named bound variable. -/
inductive HTerm where
  | var : String → HTerm
  | const : String → HTerm
  | app : HTerm → HTerm → HTerm
  | lam : String → HTerm → HTerm
deriving DecidableEq, Repr

/-- The higher-order environment `Env = Dict[Var, Tuple[Term, Term]]`. -/
abbrev HEnv := List (String × HTerm × HTerm)

/-- Model of `HOAUState.fresh_var` with the default prefix: the name `f"F{counter}"`. -/
def fName (i : Nat) : String := "F" ++ Nat.repr i

/-- Model of `_spine`: decompose into head and argument list,
`(((f a) b) c) ↦ (f, [a, b, c])`. -/
def spine : HTerm → HTerm × List HTerm
  | .app f a => let r := spine f; (r.1, r.2 ++ [a])
  | t => (t, [])

/-- Model of `_rebuild_app`: re-apply a head to an argument list, left-nested. -/
def rebuildApp (head : HTerm) (args : List HTerm) : HTerm :=
  args.foldl (fun t a => .app t a) head

/-- Model of `_apply_ctx`: build `F x1 ... xn` for the current binder context. -/
def applyCtx (f : String) (ctx : List String) : HTerm :=
  ctx.foldl (fun t v => .app t (.var v)) (.var f)

/-- Model of `_fresh_bound_name`: keep a shared bound name, otherwise use `"z"`. -/
def freshBoundName (x y : String) : String := if x = y then x else "z"

/-- Model of `_subst_bound(t, old, v)`: capture-avoiding substitution replacing the
bound name `old` by the variable named `v`, stopping at a `Lam` that
rebinds `old`. -/
def substBound (t : HTerm) (old : String) (v : String) : HTerm :=
  match t with
  | .var n => if n = old then .var v else .var n
  | .const n => .const n
  | .app f a => .app (substBound f old v) (substBound a old v)
  | .lam x b => if x = old then .lam x b else .lam x (substBound b old v)

/-- Term size ignoring the stored strings (used as the termination measure
of `hoAu`, since `substBound` preserves it). -/
def hsize : HTerm → Nat
  | .var _ => 1
  | .const _ => 1
  | .app f a => hsize f + hsize a + 1
  | .lam _ b => hsize b + 1

/-- Total size of a list of terms. -/
def hsizes : List HTerm → Nat
  | [] => 0
  | a :: as => hsize a + hsizes as

theorem hsize_pos (t : HTerm) : 1 ≤ hsize t := by
  cases t <;> simp [hsize]

theorem substBound_hsize (t : HTerm) (old v : String) :
    hsize (substBound t old v) = hsize t := by
  induction t with
  | var n => simp [substBound, hsize]; split <;> simp [hsize]
  | const n => simp [substBound]
  | app f a ihf iha => simp [substBound, hsize, ihf, iha]
  | lam x b ih => simp [substBound]; split <;> simp [hsize, ih]

theorem spine_hsize (t : HTerm) :
    hsize (spine t).1 + hsizes (spine t).2 + (spine t).2.length = hsize t := by
  induction t with
  | app f a ihf =>
      have h : ∀ l b, hsizes (l ++ [b]) = hsizes l + hsize b := by
        intro l b; induction l with
        | nil => simp [hsizes]
        | cons x xs ih => simp [hsizes, ih]; omega
      simp [spine, hsize, h]
      omega
  | var n => simp [spine, hsizes]
  | const n => simp [spine, hsizes]
  | lam x b _ => simp [spine, hsizes]

/-- The rigid-rigid head test of `_ho_au`: both heads are `Const` with equal
names. -/
def isConstHead : HTerm → HTerm → Bool
  | .const n1, .const n2 => n1 == n2
  | _, _ => false

/-- The mismatch branch of `_ho_au` (lines 135-144): reuse the variable of
an environment entry storing exactly the pair `(t1, t2)`, otherwise mint
`F{counter}` and record the pair; either way the variable is applied to the
whole binder context. -/
def hoMismatch (t1 t2 : HTerm) (ctx : List String) (c : Nat) (env : HEnv) :
    HTerm × Nat × HEnv :=
  match env.find? (fun e => e.2.1 == t1 && e.2.2 == t2) with
  | some e => (applyCtx e.1 ctx, c, env)
  | none => (applyCtx (fName c) ctx, c + 1, env ++ [(fName c, t1, t2)])

mutual

/-- Model of `_ho_au(t1, t2, ctx, st, env)` with counter and environment threaded
explicitly. -/
def hoAu (t1 t2 : HTerm) (ctx : List String) (c : Nat) (env : HEnv) :
    HTerm × Nat × HEnv :=
  if t1 = t2 then (t1, c, env)
  else
    match t1, t2 with
    | .lam x b1, .lam y b2 =>
      let fn := freshBoundName x y
      let r := hoAu (substBound b1 x fn) (substBound b2 y fn) (ctx ++ [fn]) c env
      (.lam fn r.1, r.2)
    | u1, u2 =>
      if isConstHead (spine u1).1 (spine u2).1 = true ∧
          (spine u1).2.length = (spine u2).2.length then
        let r := hoAuArgs (spine u1).2 (spine u2).2 ctx c env
        (rebuildApp (spine u1).1 r.1, r.2)
      else hoMismatch u1 u2 ctx c env
termination_by hsize t1
decreasing_by
· simp [substBound_hsize, hsize]
· have h1 := spine_hsize u1
  have h2 := hsize_pos (spine u1).1
  omega

/-- The `for a1, a2 in zip(args1, args2)` loop of the rigid-rigid case. -/
def hoAuArgs : List HTerm → List HTerm → List String → Nat → HEnv →
    List HTerm × Nat × HEnv
  | [], _, _, c, env => ([], c, env)
  | _ :: _, [], _, c, env => ([], c, env)
  | a :: as, b :: bs, ctx, c, env =>
    let r := hoAu a b ctx c env
    let r2 := hoAuArgs as bs ctx r.2.1 r.2.2
    (r.1 :: r2.1, r2.2)
termination_by l _ _ _ _ => hsizes l + l.length
decreasing_by
· simp [hsizes]; omega
· simp [hsizes]
  have := hsize_pos a
  omega

end

/-- Model of `ho_anti_unify(t1, t2)`: a fresh state, an empty environment and an
empty binder context. -/
def hoAntiUnify (t1 t2 : HTerm) : HTerm × HEnv :=
  let r := hoAu t1 t2 [] 0 []
  (r.1, r.2.2)

/-- Dictionary lookup `env[v]` by variable name. -/
def hEnvLookup (env : HEnv) (n : String) : Option (HTerm × HTerm) :=
  (env.find? (fun e => e.1 == n)).map (·.2)

/-- Substitution of environment entries into a higher-order generalization:
every variable that is a key of `env` is replaced by the component of its
stored pair selected by `pick`. -/
def substHEnv (pick : HTerm × HTerm → HTerm) (env : HEnv) : HTerm → HTerm
  | .var n =>
    match hEnvLookup env n with
    | some p => pick p
    | none => .var n
  | .const n => .const n
  | .app f a => .app (substHEnv pick env f) (substHEnv pick env a)
  | .lam x b => .lam x (substHEnv pick env b)

end HO

namespace StrNat

/-!
Injectivity of `Nat.repr`, needed to show that the names `X0, X1, ...`
(resp. `F0, F1, ...`) produced by the strictly increasing counters are
pairwise distinct.
-/

/-- Decimal digit characters of `n`, most significant first. -/
def decChars (n : Nat) : List Char :=
  if _ : n < 10 then [Nat.digitChar n]
  else decChars (n / 10) ++ [Nat.digitChar (n % 10)]
termination_by n
decreasing_by exact Nat.div_lt_self (by omega) (by omega)

theorem decChars_ne_nil (n : Nat) : decChars n ≠ [] := by
  rw [decChars.eq_def]
  split <;> simp

theorem toDigitsCore_eq_decChars :
    ∀ (fuel n : Nat) (ds : List Char), n < fuel →
      Nat.toDigitsCore 10 fuel n ds = decChars n ++ ds := by
  intro fuel
  induction fuel with
  | zero => omega
  | succ fuel ih =>
    intro n ds h
    rw [Nat.toDigitsCore]
    by_cases h0 : n / 10 = 0
    · have hn : n < 10 := by omega
      simp only [h0, if_pos]
      rw [decChars.eq_def, dif_pos hn]
      have hmod : n % 10 = n := Nat.mod_eq_of_lt hn
      simp [hmod]
    · rw [if_neg h0]
      have hlt : n / 10 < fuel := by omega
      rw [ih _ _ hlt]
      conv_rhs => rw [decChars.eq_def]
      have hn10 : ¬ n < 10 := by omega
      rw [dif_neg hn10]
      simp

theorem digitChar_inj :
    ∀ m, m < 10 → ∀ n, n < 10 → Nat.digitChar m = Nat.digitChar n → m = n := by
  decide

theorem decChars_small {n : Nat} (h : n < 10) :
    decChars n = [Nat.digitChar n] := by
  rw [decChars.eq_def]
  rw [dif_pos h]

theorem decChars_big {n : Nat} (h : ¬ n < 10) :
    decChars n = decChars (n / 10) ++ [Nat.digitChar (n % 10)] := by
  conv_lhs => rw [decChars.eq_def]
  rw [dif_neg h]

theorem decChars_inj : ∀ m n : Nat, decChars m = decChars n → m = n := by
  intro m
  induction m using Nat.strong_induction_on with
  | _ m ih =>
    intro n h
    by_cases hm : m < 10 <;> by_cases hn : n < 10
    · rw [decChars_small hm, decChars_small hn] at h
      simp at h
      exact digitChar_inj m hm n hn h
    · rw [decChars_small hm, decChars_big hn] at h
      have hlen := congrArg List.length h
      simp at hlen
      exact absurd hlen (decChars_ne_nil _)
    · rw [decChars_big hm, decChars_small hn] at h
      have hlen := congrArg List.length h
      simp at hlen
      exact absurd hlen (decChars_ne_nil _)
    · rw [decChars_big hm, decChars_big hn] at h
      have h2 := congrArg List.reverse h
      simp at h2
      obtain ⟨hdig, hrest⟩ := h2
      have hdiv : m / 10 = n / 10 := by
        apply ih (m / 10) (Nat.div_lt_self (by omega) (by omega))
        have h3 := congrArg List.reverse hrest
        simpa using h3
      have hmod : m % 10 = n % 10 :=
        digitChar_inj _ (by omega) _ (by omega) hdig
      omega

theorem repr_inj : ∀ m n : Nat, Nat.repr m = Nat.repr n → m = n := by
  intro m n h
  apply decChars_inj
  have hd := congrArg String.data h
  simp only [Nat.repr, Nat.toDigits, List.asString] at hd
  rw [toDigitsCore_eq_decChars (m + 1) m [] (by omega),
    toDigitsCore_eq_decChars (n + 1) n [] (by omega)] at hd
  simpa using hd

end StrNat

theorem FO.xName_inj : ∀ i j : Nat, FO.xName i = FO.xName j → i = j := by
  intro i j h
  apply StrNat.repr_inj
  have hd := congrArg String.data h
  simp only [FO.xName] at hd
  apply String.ext
  have : ∀ (a b : String), (a ++ b).data = a.data ++ b.data := fun a b => rfl
  rw [this, this] at hd
  simpa using hd

theorem HO.fName_inj : ∀ i j : Nat, HO.fName i = HO.fName j → i = j := by
  intro i j h
  apply StrNat.repr_inj
  have hd := congrArg String.data h
  simp only [HO.fName] at hd
  apply String.ext
  have : ∀ (a b : String), (a ++ b).data = a.data ++ b.data := fun a b => rfl
  rw [this, this] at hd
  simpa using hd

namespace FO

/-- Names that can never collide with a minted generalization variable. -/
def goodName (n : String) : Prop := ∀ i : Nat, n ≠ xName i

/-- Terms whose variables all carry non-minted names. -/
inductive GoodT : FTerm → Prop
  | var {n : String} : goodName n → GoodT (.var n)
  | const {n : String} : GoodT (.const n)
  | func {s : String} {args : List FTerm} :
      (∀ a ∈ args, GoodT a) → GoodT (.func s args)

/-- Variables of a generalization: either non-minted names carried over from
the inputs, or minted names with an index below the counter. -/
inductive GVars (c : Nat) : FTerm → Prop
  | var {n : String} :
      (goodName n ∨ ∃ j, j < c ∧ n = xName j) → GVars c (.var n)
  | const {n : String} : GVars c (.const n)
  | func {s : String} {args : List FTerm} :
      (∀ a ∈ args, GVars c a) → GVars c (.func s args)

/-- Environment invariant: the keys are the minted names of a strictly
increasing list of counter values below the current counter. -/
def EnvInv (env : Env) (c : Nat) : Prop :=
  ∃ idxs : List Nat, env.map (·.1) = idxs.map xName ∧
    idxs.Pairwise (· < ·) ∧ ∀ j ∈ idxs, j < c

/-- Entries appended during a call carry minted names whose indices lie
between the counter at entry and the counter at exit. -/
def newKeys (c c' : Nat) (Δ : Env) : Prop :=
  ∀ e ∈ Δ, ∃ j, c ≤ j ∧ j < c' ∧ e.1 = xName j

theorem GoodT.toGVars {t : FTerm} (h : GoodT t) (c : Nat) : GVars c t := by
  induction h with
  | var hg => exact .var (Or.inl hg)
  | const => exact .const
  | func hargs ih => exact .func ih

theorem GVars.mono {t : FTerm} {c c' : Nat} (h : GVars c t) (hc : c ≤ c') :
    GVars c' t := by
  induction h with
  | var hg =>
    refine .var ?_
    rcases hg with hgood | ⟨j, hj, hx⟩
    · exact Or.inl hgood
    · exact Or.inr ⟨j, lt_of_lt_of_le hj hc, hx⟩
  | const => exact .const
  | func hargs ih => exact .func ih

theorem envInvNil (c : Nat) : EnvInv [] c := ⟨[], by simp⟩

theorem envInvKeysNodup {env : Env} {c : Nat} (h : EnvInv env c) :
    (env.map (·.1)).Nodup := by
  obtain ⟨idxs, hmap, hpw, _⟩ := h
  rw [hmap]
  exact List.Nodup.map (fun i j hij => xName_inj i j hij)
    (hpw.imp fun hab => Nat.ne_of_lt hab)

theorem EnvInv.mem {env : Env} {c : Nat} (h : EnvInv env c)
    {e : String × FTerm × FTerm} (he : e ∈ env) :
    ∃ j, j < c ∧ e.1 = xName j := by
  obtain ⟨idxs, hmap, _, hbd⟩ := h
  have hm : e.1 ∈ env.map (·.1) := List.mem_map_of_mem _ he
  rw [hmap] at hm
  obtain ⟨j, hj, hx⟩ := List.mem_map.mp hm
  exact ⟨j, hbd j hj, hx.symm⟩

/-- Appending one freshly minted entry preserves the invariant. -/
theorem envInvSnoc {env : Env} {c : Nat} (h : EnvInv env c)
    (t1 t2 : FTerm) : EnvInv (env ++ [(xName c, t1, t2)]) (c + 1) := by
  obtain ⟨idxs, hmap, hpw, hbd⟩ := h
  refine ⟨idxs ++ [c], by simp [hmap], ?_, ?_⟩
  · rw [List.pairwise_append]
    refine ⟨hpw, by simp, ?_⟩
    intro a ha b hb
    simp at hb
    subst hb
    exact hbd a ha
  · intro j hj
    rcases List.mem_append.mp hj with hj | hj
    · exact lt_of_lt_of_le (hbd j hj) (Nat.le_succ c)
    · simp at hj; omega

theorem envLookup_mem {env : Env} (hnd : (env.map (·.1)).Nodup)
    {e : String × FTerm × FTerm} (he : e ∈ env) :
    envLookup env e.1 = some e.2 := by
  induction env with
  | nil => cases he
  | cons x xs ih =>
    rcases List.mem_cons.mp he with rfl | htl
    · simp [envLookup, List.find?_cons_of_pos]
    · have hx1 : (x.1 == e.1) = false := by
        rw [beq_eq_false_iff_ne]
        intro hq
        have hm : e.1 ∈ xs.map (·.1) := List.mem_map_of_mem _ htl
        rw [List.map_cons, List.nodup_cons] at hnd
        exact hnd.1 (hq ▸ hm)
      have := ih (by rw [List.map_cons, List.nodup_cons] at hnd; exact hnd.2) htl
      simpa [envLookup, List.find?_cons_of_neg, hx1] using this

/-- Pointwise congruence for the list version of the substitution. -/
theorem substEnvs_congr {pick : FTerm × FTerm → FTerm} {env1 env2 : Env} :
    ∀ {l : List FTerm},
      (∀ a ∈ l, substEnv pick env1 a = substEnv pick env2 a) →
      substEnvs pick env1 l = substEnvs pick env2 l := by
  intro l
  induction l with
  | nil => intro _; simp [substEnvs]
  | cons a as ih =>
    intro h
    simp only [substEnvs]
    exact by rw [h a (by simp), ih fun b hb => h b (by simp [hb])]

/-- Pointwise identity for the list version of the substitution. -/
theorem substEnvs_id {pick : FTerm × FTerm → FTerm} {env : Env} :
    ∀ {l : List FTerm},
      (∀ a ∈ l, substEnv pick env a = a) →
      substEnvs pick env l = l := by
  intro l
  induction l with
  | nil => intro _; simp [substEnvs]
  | cons a as ih =>
    intro h
    simp only [substEnvs]
    rw [h a (by simp), ih fun b hb => h b (by simp [hb])]

/-- Substitution ignores a term whose variables are all non-minted, as long
as every key of the environment is a minted name. -/
theorem substEnv_id (pick : FTerm × FTerm → FTerm) {env : Env}
    (hkeys : ∀ e ∈ env, ∃ j : Nat, e.1 = xName j) :
    ∀ {t : FTerm}, GoodT t → substEnv pick env t = t := by
  intro t ht
  induction ht with
  | @var n hn =>
    have hf : env.find? (fun e => e.1 == n) = none := by
      apply List.find?_eq_none.mpr
      intro e he
      obtain ⟨j, hx⟩ := hkeys e he
      simp only [hx]
      intro hq
      exact hn j ((beq_iff_eq.mp hq).symm)
    simp [substEnv, envLookup, hf]
  | const => simp [substEnv]
  | func hargs ih =>
    simp only [substEnv]
    rw [substEnvs_id ih]

/-- Substitution into a generalization is unchanged by appending entries
whose minted indices are at least the current counter. -/
theorem substEnv_extend (pick : FTerm × FTerm → FTerm) {env Δ : Env} {c : Nat}
    (hΔ : ∀ e ∈ Δ, ∃ j, c ≤ j ∧ e.1 = xName j) :
    ∀ {g : FTerm}, GVars c g →
      substEnv pick (env ++ Δ) g = substEnv pick env g := by
  intro g hg
  induction hg with
  | @var n hn =>
    have hΔnone : Δ.find? (fun e => e.1 == n) = none := by
      apply List.find?_eq_none.mpr
      intro e he
      obtain ⟨j, hj, hx⟩ := hΔ e he
      simp only [hx]
      intro hq
      have hq' := beq_iff_eq.mp hq
      rcases hn with hgood | ⟨k, hk, hxk⟩
      · exact hgood j hq'.symm
      · rw [hxk] at hq'
        have := xName_inj j k hq'
        omega
    have hfind : (env ++ Δ).find? (fun e => e.1 == n) =
        env.find? (fun e => e.1 == n) := by
      rw [List.find?_append, hΔnone]
      cases env.find? (fun e => e.1 == n) <;> rfl
    simp [substEnv, envLookup, hfind]
  | const => simp [substEnv]
  | func hargs ih =>
    simp only [substEnv]
    rw [substEnvs_congr ih]

theorem GoodT.func_inv {s : String} {args : List FTerm}
    (h : GoodT (.func s args)) : ∀ a ∈ args, GoodT a := by
  cases h with
  | func h => exact h

theorem newKeys_nil (c c' : Nat) : newKeys c c' [] :=
  fun e he => absurd he (List.not_mem_nil e)

theorem newKeysWeaken {c1 c2 c0 c3 : Nat} {Δ : Env} (h : newKeys c1 c2 Δ)
    (h0 : c0 ≤ c1) (h3 : c2 ≤ c3) : newKeys c0 c3 Δ := by
  intro e he
  obtain ⟨j, hj1, hj2, hx⟩ := h e he
  exact ⟨j, le_trans h0 hj1, lt_of_lt_of_le hj2 h3, hx⟩

theorem newKeysAppend {c1 c2 c3 : Nat} {Δ1 Δ2 : Env}
    (h1 : newKeys c1 c2 Δ1) (h2 : newKeys c2 c3 Δ2) (hc : c1 ≤ c2)
    (hc' : c2 ≤ c3) : newKeys c1 c3 (Δ1 ++ Δ2) := by
  intro e he
  rcases List.mem_append.mp he with he | he
  · exact (newKeysWeaken h1 (le_refl c1) hc') e he
  · exact (newKeysWeaken h2 hc (le_refl c3)) e he

/-- Postcondition of one `anti_unify` call: the counter is monotone, the
environment is extended by append with freshly minted keys only, the
environment invariant is preserved, and (for inputs whose variables cannot
collide with minted names) the generalization substitutes back to the two
inputs. -/
def AUPost (t1 t2 : FTerm) (c : Nat) (env : Env)
    (g : FTerm) (c' : Nat) (env' : Env) : Prop :=
  c ≤ c' ∧
  (∃ Δ, env' = env ++ Δ ∧ newKeys c c' Δ) ∧
  (EnvInv env c → EnvInv env' c') ∧
  (GoodT t1 → GoodT t2 → EnvInv env c →
    GVars c' g ∧ substEnv Prod.fst env' g = t1 ∧ substEnv Prod.snd env' g = t2)

/-- Postcondition of the argument loop of `anti_unify`. -/
def AUArgsPost (l1 l2 : List FTerm) (c : Nat) (env : Env)
    (gs : List FTerm) (c' : Nat) (env' : Env) : Prop :=
  c ≤ c' ∧
  (∃ Δ, env' = env ++ Δ ∧ newKeys c c' Δ) ∧
  (EnvInv env c → EnvInv env' c') ∧
  (l1.length = l2.length →
    (∀ a ∈ l1, GoodT a) → (∀ b ∈ l2, GoodT b) → EnvInv env c →
    (∀ g ∈ gs, GVars c' g) ∧
    substEnvs Prod.fst env' gs = l1 ∧ substEnvs Prod.snd env' gs = l2)

theorem auMismatch_post (t1 t2 : FTerm) (c : Nat) (env : Env) :
    AUPost t1 t2 c env (auMismatch t1 t2 c env).1
      (auMismatch t1 t2 c env).2.1 (auMismatch t1 t2 c env).2.2 := by
  unfold auMismatch
  cases hf : env.find? (fun e => e.2.1 == t1 && e.2.2 == t2) with
  | some e =>
    refine ⟨le_refl c, ⟨[], by simp, newKeys_nil c c⟩, fun h => h, ?_⟩
    intro _ _ hinv
    have hmem := List.mem_of_find?_eq_some hf
    have hp := List.find?_some hf
    simp only [Bool.and_eq_true, beq_iff_eq] at hp
    obtain ⟨hp1, hp2⟩ := hp
    obtain ⟨j, hj, hx⟩ := hinv.mem hmem
    have hlook := envLookup_mem (envInvKeysNodup hinv) hmem
    refine ⟨.var (Or.inr ⟨j, hj, hx⟩), ?_, ?_⟩
    · simp [substEnv, hlook, hp1]
    · simp [substEnv, hlook, hp2]
  | none =>
    refine ⟨Nat.le_succ c, ⟨[(xName c, t1, t2)], rfl, ?_⟩,
      fun h => envInvSnoc h t1 t2, ?_⟩
    · intro e he
      simp at he
      exact ⟨c, le_refl c, Nat.lt_succ_self c, by rw [he]⟩
    · intro _ _ hinv
      have hfe : (env ++ [(xName c, t1, t2)]).find?
          (fun e => e.1 == xName c) = some (xName c, t1, t2) := by
        rw [List.find?_append]
        have hn : env.find? (fun e => e.1 == xName c) = none := by
          apply List.find?_eq_none.mpr
          intro e he
          obtain ⟨j, hj, hx⟩ := hinv.mem he
          simp only [hx]
          intro hq
          have := xName_inj j c (beq_iff_eq.mp hq)
          omega
        rw [hn]
        simp [List.find?]
      refine ⟨.var (Or.inr ⟨c, Nat.lt_succ_self c, rfl⟩), ?_, ?_⟩
      · simp [substEnv, envLookup, hfe]
      · simp [substEnv, envLookup, hfe]

theorem antiUnify_eq_self (t : FTerm) (c : Nat) (env : Env) :
    antiUnify t t c env = (t, c, env) := by
  rw [antiUnify.eq_def]
  simp

theorem antiUnify_eq_func {s1 s2 : String} {a1 a2 : List FTerm}
    (hc : s1 = s2 ∧ a1.length = a2.length)
    (hne : FTerm.func s1 a1 ≠ FTerm.func s2 a2) (c : Nat) (env : Env) :
    antiUnify (.func s1 a1) (.func s2 a2) c env =
      (.func s1 (antiUnifyArgs a1 a2 c env).1, (antiUnifyArgs a1 a2 c env).2) := by
  rw [antiUnify.eq_def, if_neg hne]
  simp only [if_pos hc]

theorem antiUnify_eq_func_mismatch {s1 s2 : String} {a1 a2 : List FTerm}
    (hnc : ¬(s1 = s2 ∧ a1.length = a2.length))
    (hne : FTerm.func s1 a1 ≠ FTerm.func s2 a2) (c : Nat) (env : Env) :
    antiUnify (.func s1 a1) (.func s2 a2) c env =
      auMismatch (.func s1 a1) (.func s2 a2) c env := by
  rw [antiUnify.eq_def, if_neg hne]
  simp only [if_neg hnc]

theorem antiUnify_eq_mismatch {u1 u2 : FTerm}
    (hnf : ∀ (s1 : String) (a1 : List FTerm) (s2 : String) (a2 : List FTerm),
      u1 = FTerm.func s1 a1 → u2 = FTerm.func s2 a2 → False)
    (hne : u1 ≠ u2) (c : Nat) (env : Env) :
    antiUnify u1 u2 c env = auMismatch u1 u2 c env := by
  rw [antiUnify.eq_def, if_neg hne]
  cases u1 <;> cases u2 <;> first
    | exact (hnf _ _ _ _ rfl rfl).elim
    | rfl

theorem antiUnifyArgs_eq_nil (l2 : List FTerm) (c : Nat) (env : Env) :
    antiUnifyArgs [] l2 c env = ([], c, env) := by
  rw [antiUnifyArgs.eq_def]

theorem antiUnifyArgs_eq_nil2 (a : FTerm) (as : List FTerm) (c : Nat)
    (env : Env) : antiUnifyArgs (a :: as) [] c env = ([], c, env) := by
  rw [antiUnifyArgs.eq_def]

theorem antiUnifyArgs_eq_cons (a b : FTerm) (as bs : List FTerm) (c : Nat)
    (env : Env) :
    antiUnifyArgs (a :: as) (b :: bs) c env =
      ((antiUnify a b c env).1 ::
        (antiUnifyArgs as bs (antiUnify a b c env).2.1
          (antiUnify a b c env).2.2).1,
       (antiUnifyArgs as bs (antiUnify a b c env).2.1
          (antiUnify a b c env).2.2).2) := by
  rw [antiUnifyArgs.eq_def]

theorem auCase1 (t : FTerm) (c : Nat) (env : Env) :
    AUPost t t c env (antiUnify t t c env).1
      (antiUnify t t c env).2.1 (antiUnify t t c env).2.2 := by
  rw [antiUnify_eq_self]
  refine ⟨le_refl c, ⟨[], by simp, newKeys_nil c c⟩, fun h => h, ?_⟩
  intro h1 _ hinv
  have hkeys : ∀ e ∈ env, ∃ j : Nat, e.1 = xName j :=
    fun e he => (hinv.mem he).imp fun j hj => hj.2
  exact ⟨h1.toGVars c, substEnv_id Prod.fst hkeys h1, substEnv_id Prod.snd hkeys h1⟩

theorem auCase2 (c : Nat) (env : Env) (s1 : String) (a1 : List FTerm)
    (s2 : String) (a2 : List FTerm)
    (hc : s1 = s2 ∧ a1.length = a2.length)
    (hne : ¬FTerm.func s1 a1 = FTerm.func s2 a2)
    (ih : AUArgsPost a1 a2 c env (antiUnifyArgs a1 a2 c env).1
      (antiUnifyArgs a1 a2 c env).2.1 (antiUnifyArgs a1 a2 c env).2.2) :
    AUPost (.func s1 a1) (.func s2 a2) c env
      (antiUnify (.func s1 a1) (.func s2 a2) c env).1
      (antiUnify (.func s1 a1) (.func s2 a2) c env).2.1
      (antiUnify (.func s1 a1) (.func s2 a2) c env).2.2 := by
  rw [antiUnify_eq_func hc hne]
  obtain ⟨hm, hΔ, hinvp, hsub⟩ := ih
  refine ⟨hm, hΔ, hinvp, ?_⟩
  intro h1 h2 hinv
  obtain ⟨hg, hl, hr⟩ := hsub hc.2 h1.func_inv h2.func_inv hinv
  obtain ⟨rfl, -⟩ := hc
  exact ⟨.func hg, by simp only [substEnv]; rw [hl], by simp only [substEnv]; rw [hr]⟩

theorem auCase3 (c : Nat) (env : Env) (s1 : String) (a1 : List FTerm)
    (s2 : String) (a2 : List FTerm)
    (hnc : ¬(s1 = s2 ∧ a1.length = a2.length))
    (hne : ¬FTerm.func s1 a1 = FTerm.func s2 a2) :
    AUPost (.func s1 a1) (.func s2 a2) c env
      (antiUnify (.func s1 a1) (.func s2 a2) c env).1
      (antiUnify (.func s1 a1) (.func s2 a2) c env).2.1
      (antiUnify (.func s1 a1) (.func s2 a2) c env).2.2 := by
  rw [antiUnify_eq_func_mismatch hnc hne]
  exact auMismatch_post _ _ c env

theorem auCase4 (c : Nat) (env : Env) (u1 u2 : FTerm)
    (hnf : ∀ (s1 : String) (a1 : List FTerm) (s2 : String) (a2 : List FTerm),
      u1 = FTerm.func s1 a1 → u2 = FTerm.func s2 a2 → False)
    (hne : ¬u1 = u2) :
    AUPost u1 u2 c env (antiUnify u1 u2 c env).1
      (antiUnify u1 u2 c env).2.1 (antiUnify u1 u2 c env).2.2 := by
  rw [antiUnify_eq_mismatch hnf hne]
  exact auMismatch_post u1 u2 c env

theorem auCase5 (l2 : List FTerm) (c : Nat) (env : Env) :
    AUArgsPost [] l2 c env (antiUnifyArgs [] l2 c env).1
      (antiUnifyArgs [] l2 c env).2.1 (antiUnifyArgs [] l2 c env).2.2 := by
  rw [antiUnifyArgs_eq_nil]
  refine ⟨le_refl c, ⟨[], by simp, newKeys_nil c c⟩, fun h => h, ?_⟩
  intro hlen _ _ _
  have hl2 : l2 = [] := List.length_eq_zero.mp hlen.symm
  subst hl2
  exact ⟨fun g hg => absurd hg (List.not_mem_nil g),
    by simp [substEnvs], by simp [substEnvs]⟩

theorem auCase6 (a : FTerm) (as : List FTerm) (c : Nat) (env : Env) :
    AUArgsPost (a :: as) [] c env (antiUnifyArgs (a :: as) [] c env).1
      (antiUnifyArgs (a :: as) [] c env).2.1
      (antiUnifyArgs (a :: as) [] c env).2.2 := by
  rw [antiUnifyArgs_eq_nil2]
  refine ⟨le_refl c, ⟨[], by simp, newKeys_nil c c⟩, fun h => h, ?_⟩
  intro hlen
  simp at hlen

theorem auCase7 (a : FTerm) (as : List FTerm) (b : FTerm) (bs : List FTerm)
    (c : Nat) (env : Env)
    (ih1 : AUPost a b c env (antiUnify a b c env).1
      (antiUnify a b c env).2.1 (antiUnify a b c env).2.2)
    (ih2 : AUArgsPost as bs (antiUnify a b c env).2.1
      (antiUnify a b c env).2.2
      (antiUnifyArgs as bs (antiUnify a b c env).2.1
        (antiUnify a b c env).2.2).1
      (antiUnifyArgs as bs (antiUnify a b c env).2.1
        (antiUnify a b c env).2.2).2.1
      (antiUnifyArgs as bs (antiUnify a b c env).2.1
        (antiUnify a b c env).2.2).2.2) :
    AUArgsPost (a :: as) (b :: bs) c env
      (antiUnifyArgs (a :: as) (b :: bs) c env).1
      (antiUnifyArgs (a :: as) (b :: bs) c env).2.1
      (antiUnifyArgs (a :: as) (b :: bs) c env).2.2 := by
  rw [antiUnifyArgs_eq_cons]
  obtain ⟨hm1, ⟨Δ1, hΔ1e, hΔ1k⟩, hinv1, hsub1⟩ := ih1
  obtain ⟨hm2, ⟨Δ2, hΔ2e, hΔ2k⟩, hinv2, hsub2⟩ := ih2
  refine ⟨le_trans hm1 hm2,
    ⟨Δ1 ++ Δ2, by rw [hΔ2e, hΔ1e, List.append_assoc],
      newKeysAppend hΔ1k hΔ2k hm1 hm2⟩,
    fun h => hinv2 (hinv1 h), ?_⟩
  intro hlen hg1 hg2 hinv
  have hlen' : as.length = bs.length := by simpa using hlen
  obtain ⟨hgv, hL, hR⟩ :=
    hsub1 (hg1 a (by simp)) (hg2 b (by simp)) hinv
  obtain ⟨hgvs, hLs, hRs⟩ :=
    hsub2 hlen' (fun x hx => hg1 x (by simp [hx]))
      (fun x hx => hg2 x (by simp [hx])) (hinv1 hinv)
  have hstab : ∀ pick,
      substEnv pick (antiUnifyArgs as bs (antiUnify a b c env).2.1
          (antiUnify a b c env).2.2).2.2 (antiUnify a b c env).1 =
        substEnv pick (antiUnify a b c env).2.2 (antiUnify a b c env).1 := by
    intro pick
    rw [hΔ2e]
    exact substEnv_extend pick
      (fun e he => ((hΔ2k e he).imp fun j hj => ⟨hj.1, hj.2.2⟩)) hgv
  constructor
  · intro g hg
    rcases List.mem_cons.mp hg with rfl | hg
    · exact hgv.mono hm2
    · exact hgvs g hg
  refine ⟨?_, ?_⟩
  · simp only [substEnvs]
    rw [hstab Prod.fst, hL, hLs]
  · simp only [substEnvs]
    rw [hstab Prod.snd, hR, hRs]

theorem auSpec : ∀ (t1 t2 : FTerm) (c : Nat) (env : Env),
    AUPost t1 t2 c env (antiUnify t1 t2 c env).1
      (antiUnify t1 t2 c env).2.1 (antiUnify t1 t2 c env).2.2 :=
  antiUnify.induct
    (fun t1 t2 c env => AUPost t1 t2 c env (antiUnify t1 t2 c env).1
      (antiUnify t1 t2 c env).2.1 (antiUnify t1 t2 c env).2.2)
    (fun l1 l2 c env => AUArgsPost l1 l2 c env (antiUnifyArgs l1 l2 c env).1
      (antiUnifyArgs l1 l2 c env).2.1 (antiUnifyArgs l1 l2 c env).2.2)
    auCase1 auCase2 auCase3 auCase4 auCase5 auCase6 auCase7

theorem auArgsSpec : ∀ (l1 l2 : List FTerm) (c : Nat) (env : Env),
    AUArgsPost l1 l2 c env (antiUnifyArgs l1 l2 c env).1
      (antiUnifyArgs l1 l2 c env).2.1 (antiUnifyArgs l1 l2 c env).2.2 :=
  antiUnifyArgs.induct
    (fun t1 t2 c env => AUPost t1 t2 c env (antiUnify t1 t2 c env).1
      (antiUnify t1 t2 c env).2.1 (antiUnify t1 t2 c env).2.2)
    (fun l1 l2 c env => AUArgsPost l1 l2 c env (antiUnifyArgs l1 l2 c env).1
      (antiUnifyArgs l1 l2 c env).2.1 (antiUnifyArgs l1 l2 c env).2.2)
    auCase1 auCase2 auCase3 auCase4 auCase5 auCase6 auCase7

end FO

namespace HO

/-- Environment invariant for the higher-order engine: keys are the minted
names of a strictly increasing list of counter values below the counter. -/
def HEnvInv (env : HEnv) (c : Nat) : Prop :=
  ∃ idxs : List Nat, env.map (·.1) = idxs.map fName ∧
    idxs.Pairwise (· < ·) ∧ ∀ j ∈ idxs, j < c

/-- Entries appended during a call carry minted names whose indices lie
between the counter at entry and the counter at exit. -/
def hNewKeys (c c' : Nat) (Δ : HEnv) : Prop :=
  ∀ e ∈ Δ, ∃ j, c ≤ j ∧ j < c' ∧ e.1 = fName j

theorem hEnvInvNil (c : Nat) : HEnvInv [] c := ⟨[], by simp⟩

theorem hEnvInvKeysNodup {env : HEnv} {c : Nat} (h : HEnvInv env c) :
    (env.map (·.1)).Nodup := by
  obtain ⟨idxs, hmap, hpw, _⟩ := h
  rw [hmap]
  exact List.Nodup.map (fun i j hij => fName_inj i j hij)
    (hpw.imp fun hab => Nat.ne_of_lt hab)

theorem hEnvInvSnoc {env : HEnv} {c : Nat} (h : HEnvInv env c)
    (t1 t2 : HTerm) : HEnvInv (env ++ [(fName c, t1, t2)]) (c + 1) := by
  obtain ⟨idxs, hmap, hpw, hbd⟩ := h
  refine ⟨idxs ++ [c], by simp [hmap], ?_, ?_⟩
  · rw [List.pairwise_append]
    refine ⟨hpw, by simp, ?_⟩
    intro a ha b hb
    simp at hb
    subst hb
    exact hbd a ha
  · intro j hj
    rcases List.mem_append.mp hj with hj | hj
    · exact lt_of_lt_of_le (hbd j hj) (Nat.le_succ c)
    · simp at hj; omega

theorem hNewKeys_nil (c c' : Nat) : hNewKeys c c' [] :=
  fun e he => absurd he (List.not_mem_nil e)

theorem hNewKeysWeaken {c1 c2 c0 c3 : Nat} {Δ : HEnv} (h : hNewKeys c1 c2 Δ)
    (h0 : c0 ≤ c1) (h3 : c2 ≤ c3) : hNewKeys c0 c3 Δ := by
  intro e he
  obtain ⟨j, hj1, hj2, hx⟩ := h e he
  exact ⟨j, le_trans h0 hj1, lt_of_lt_of_le hj2 h3, hx⟩

theorem hNewKeysAppend {c1 c2 c3 : Nat} {Δ1 Δ2 : HEnv}
    (h1 : hNewKeys c1 c2 Δ1) (h2 : hNewKeys c2 c3 Δ2) (hc : c1 ≤ c2)
    (hc' : c2 ≤ c3) : hNewKeys c1 c3 (Δ1 ++ Δ2) := by
  intro e he
  rcases List.mem_append.mp he with he | he
  · exact (hNewKeysWeaken h1 (le_refl c1) hc') e he
  · exact (hNewKeysWeaken h2 hc (le_refl c3)) e he

/-- Environment-and-counter postcondition of one `_ho_au` call. -/
def HOPost (c : Nat) (env : HEnv) (c' : Nat) (env' : HEnv) : Prop :=
  c ≤ c' ∧ (∃ Δ, env' = env ++ Δ ∧ hNewKeys c c' Δ) ∧
  (HEnvInv env c → HEnvInv env' c')

theorem hoMismatch_post (t1 t2 : HTerm) (ctx : List String) (c : Nat)
    (env : HEnv) :
    HOPost c env (hoMismatch t1 t2 ctx c env).2.1
      (hoMismatch t1 t2 ctx c env).2.2 := by
  unfold hoMismatch
  cases hf : env.find? (fun e => e.2.1 == t1 && e.2.2 == t2) with
  | some e =>
    exact ⟨le_refl c, ⟨[], by simp, hNewKeys_nil c c⟩, fun h => h⟩
  | none =>
    refine ⟨Nat.le_succ c, ⟨[(fName c, t1, t2)], rfl, ?_⟩,
      fun h => hEnvInvSnoc h t1 t2⟩
    intro e he
    simp at he
    exact ⟨c, le_refl c, Nat.lt_succ_self c, by rw [he]⟩

theorem hoAu_eq_self (t : HTerm) (ctx : List String) (c : Nat) (env : HEnv) :
    hoAu t t ctx c env = (t, c, env) := by
  rw [hoAu.eq_def]
  simp

theorem hoAu_eq_lam {x y : String} {b1 b2 : HTerm}
    (hne : ¬HTerm.lam x b1 = HTerm.lam y b2) (ctx : List String) (c : Nat)
    (env : HEnv) :
    hoAu (.lam x b1) (.lam y b2) ctx c env =
      (.lam (freshBoundName x y)
        (hoAu (substBound b1 x (freshBoundName x y))
          (substBound b2 y (freshBoundName x y))
          (ctx ++ [freshBoundName x y]) c env).1,
       (hoAu (substBound b1 x (freshBoundName x y))
          (substBound b2 y (freshBoundName x y))
          (ctx ++ [freshBoundName x y]) c env).2) := by
  rw [hoAu.eq_def, if_neg hne]

theorem hoAu_eq_notlam {u1 u2 : HTerm}
    (hnl : ∀ (x : String) (b1 : HTerm) (y : String) (b2 : HTerm),
      u1 = HTerm.lam x b1 → u2 = HTerm.lam y b2 → False)
    (hne : ¬u1 = u2) (ctx : List String) (c : Nat) (env : HEnv) :
    hoAu u1 u2 ctx c env =
      if isConstHead (spine u1).1 (spine u2).1 = true ∧
          (spine u1).2.length = (spine u2).2.length then
        (rebuildApp (spine u1).1
          (hoAuArgs (spine u1).2 (spine u2).2 ctx c env).1,
         (hoAuArgs (spine u1).2 (spine u2).2 ctx c env).2)
      else hoMismatch u1 u2 ctx c env := by
  rw [hoAu.eq_def, if_neg hne]
  cases u1 <;> cases u2 <;> first
    | exact (hnl _ _ _ _ rfl rfl).elim
    | rfl

theorem hoAuArgs_eq_nil (l2 : List HTerm) (ctx : List String) (c : Nat)
    (env : HEnv) : hoAuArgs [] l2 ctx c env = ([], c, env) := by
  rw [hoAuArgs.eq_def]

theorem hoAuArgs_eq_nil2 (a : HTerm) (as : List HTerm) (ctx : List String)
    (c : Nat) (env : HEnv) : hoAuArgs (a :: as) [] ctx c env = ([], c, env) := by
  rw [hoAuArgs.eq_def]

theorem hoAuArgs_eq_cons (a b : HTerm) (as bs : List HTerm)
    (ctx : List String) (c : Nat) (env : HEnv) :
    hoAuArgs (a :: as) (b :: bs) ctx c env =
      ((hoAu a b ctx c env).1 ::
        (hoAuArgs as bs ctx (hoAu a b ctx c env).2.1
          (hoAu a b ctx c env).2.2).1,
       (hoAuArgs as bs ctx (hoAu a b ctx c env).2.1
          (hoAu a b ctx c env).2.2).2) := by
  rw [hoAuArgs.eq_def]

theorem hoCase1 (t : HTerm) (ctx : List String) (c : Nat) (env : HEnv) :
    HOPost c env (hoAu t t ctx c env).2.1 (hoAu t t ctx c env).2.2 := by
  rw [hoAu_eq_self]
  exact ⟨le_refl c, ⟨[], by simp, hNewKeys_nil c c⟩, fun h => h⟩

theorem hoCase2 (ctx : List String) (c : Nat) (env : HEnv) (x : String)
    (b1 : HTerm) (y : String) (b2 : HTerm)
    (hne : ¬HTerm.lam x b1 = HTerm.lam y b2)
    (ih : HOPost c env
      (hoAu (substBound b1 x (freshBoundName x y))
        (substBound b2 y (freshBoundName x y))
        (ctx ++ [freshBoundName x y]) c env).2.1
      (hoAu (substBound b1 x (freshBoundName x y))
        (substBound b2 y (freshBoundName x y))
        (ctx ++ [freshBoundName x y]) c env).2.2) :
    HOPost c env (hoAu (.lam x b1) (.lam y b2) ctx c env).2.1
      (hoAu (.lam x b1) (.lam y b2) ctx c env).2.2 := by
  rw [hoAu_eq_lam hne]
  exact ih

theorem hoCase3 (ctx : List String) (c : Nat) (env : HEnv) (u1 u2 : HTerm)
    (hnl : ∀ (x : String) (b1 : HTerm) (y : String) (b2 : HTerm),
      u1 = HTerm.lam x b1 → u2 = HTerm.lam y b2 → False)
    (hcond : isConstHead (spine u1).1 (spine u2).1 = true ∧
      (spine u1).2.length = (spine u2).2.length)
    (hne : ¬u1 = u2)
    (ih : HOPost c env
      (hoAuArgs (spine u1).2 (spine u2).2 ctx c env).2.1
      (hoAuArgs (spine u1).2 (spine u2).2 ctx c env).2.2) :
    HOPost c env (hoAu u1 u2 ctx c env).2.1 (hoAu u1 u2 ctx c env).2.2 := by
  rw [hoAu_eq_notlam hnl hne, if_pos hcond]
  exact ih

theorem hoCase4 (ctx : List String) (c : Nat) (env : HEnv) (u1 u2 : HTerm)
    (hnl : ∀ (x : String) (b1 : HTerm) (y : String) (b2 : HTerm),
      u1 = HTerm.lam x b1 → u2 = HTerm.lam y b2 → False)
    (hncond : ¬(isConstHead (spine u1).1 (spine u2).1 = true ∧
      (spine u1).2.length = (spine u2).2.length))
    (hne : ¬u1 = u2) :
    HOPost c env (hoAu u1 u2 ctx c env).2.1 (hoAu u1 u2 ctx c env).2.2 := by
  rw [hoAu_eq_notlam hnl hne, if_neg hncond]
  exact hoMismatch_post u1 u2 ctx c env

theorem hoCase5 (l2 : List HTerm) (ctx : List String) (c : Nat) (env : HEnv) :
    HOPost c env (hoAuArgs [] l2 ctx c env).2.1
      (hoAuArgs [] l2 ctx c env).2.2 := by
  rw [hoAuArgs_eq_nil]
  exact ⟨le_refl c, ⟨[], by simp, hNewKeys_nil c c⟩, fun h => h⟩

theorem hoCase6 (a : HTerm) (as : List HTerm) (ctx : List String) (c : Nat)
    (env : HEnv) :
    HOPost c env (hoAuArgs (a :: as) [] ctx c env).2.1
      (hoAuArgs (a :: as) [] ctx c env).2.2 := by
  rw [hoAuArgs_eq_nil2]
  exact ⟨le_refl c, ⟨[], by simp, hNewKeys_nil c c⟩, fun h => h⟩

theorem hoCase7 (a : HTerm) (as : List HTerm) (b : HTerm) (bs : List HTerm)
    (ctx : List String) (c : Nat) (env : HEnv)
    (ih1 : HOPost c env (hoAu a b ctx c env).2.1 (hoAu a b ctx c env).2.2)
    (ih2 : HOPost (hoAu a b ctx c env).2.1 (hoAu a b ctx c env).2.2
      (hoAuArgs as bs ctx (hoAu a b ctx c env).2.1
        (hoAu a b ctx c env).2.2).2.1
      (hoAuArgs as bs ctx (hoAu a b ctx c env).2.1
        (hoAu a b ctx c env).2.2).2.2) :
    HOPost c env (hoAuArgs (a :: as) (b :: bs) ctx c env).2.1
      (hoAuArgs (a :: as) (b :: bs) ctx c env).2.2 := by
  rw [hoAuArgs_eq_cons]
  obtain ⟨hm1, ⟨Δ1, hΔ1e, hΔ1k⟩, hinv1⟩ := ih1
  obtain ⟨hm2, ⟨Δ2, hΔ2e, hΔ2k⟩, hinv2⟩ := ih2
  exact ⟨le_trans hm1 hm2,
    ⟨Δ1 ++ Δ2, by rw [hΔ2e, hΔ1e, List.append_assoc],
      hNewKeysAppend hΔ1k hΔ2k hm1 hm2⟩,
    fun h => hinv2 (hinv1 h)⟩

theorem hoSpec : ∀ (t1 t2 : HTerm) (ctx : List String) (c : Nat) (env : HEnv),
    HOPost c env (hoAu t1 t2 ctx c env).2.1 (hoAu t1 t2 ctx c env).2.2 :=
  hoAu.induct
    (fun t1 t2 ctx c env =>
      HOPost c env (hoAu t1 t2 ctx c env).2.1 (hoAu t1 t2 ctx c env).2.2)
    (fun l1 l2 ctx c env =>
      HOPost c env (hoAuArgs l1 l2 ctx c env).2.1
        (hoAuArgs l1 l2 ctx c env).2.2)
    hoCase1 hoCase2 hoCase3 hoCase4 hoCase5 hoCase6 hoCase7

/-- Free occurrence test for a name: an occurrence under a `Lam` that
rebinds the same name is not free. -/
def occursFree (n : String) : HTerm → Bool
  | .var m => m == n
  | .const _ => false
  | .app f a => occursFree n f || occursFree n a
  | .lam x b => if x == n then false else occursFree n b

end HO

namespace FO

theorem antiUnifyArgs_length :
    ∀ (l1 l2 : List FTerm) (c : Nat) (env : Env), l1.length = l2.length →
      (antiUnifyArgs l1 l2 c env).1.length = l1.length := by
  intro l1
  induction l1 with
  | nil =>
    intro l2 c env _
    rw [antiUnifyArgs_eq_nil]
  | cons a as ih =>
    intro l2 c env h
    cases l2 with
    | nil => simp at h
    | cons b bs =>
      rw [antiUnifyArgs_eq_cons]
      simp only [List.length_cons]
      rw [ih bs _ _ (by simpa using h)]

end FO

/-- Evaluation of the first-order engine on the spec's sharing example
`f(a, a)` vs `f(b, b)`. -/
theorem foSharing_eval :
    FO.antiUnifyTop (.func "f" [.const "a", .const "a"])
        (.func "f" [.const "b", .const "b"]) =
      (.func "f" [.var "X0", .var "X0"], [("X0", .const "a", .const "b")]) := by
  simp [FO.antiUnifyTop, FO.antiUnify, FO.antiUnifyArgs, FO.auMismatch,
    FO.xName, Nat.repr, Nat.toDigits, Nat.toDigitsCore, Nat.digitChar,
    List.asString]

/-- Evaluation of the first-order engine on inputs that already contain the
variable `X0` that the engine mints. -/
theorem foCollision_eval :
    FO.antiUnifyTop (.func "f" [.var "X0", .const "a"])
        (.func "f" [.var "X0", .const "b"]) =
      (.func "f" [.var "X0", .var "X0"], [("X0", .const "a", .const "b")]) := by
  simp [FO.antiUnifyTop, FO.antiUnify, FO.antiUnifyArgs, FO.auMismatch,
    FO.xName, Nat.repr, Nat.toDigits, Nat.toDigitsCore, Nat.digitChar,
    List.asString]

/-- Evaluation of the higher-order engine on `λx. f x` vs `λx. g x`. -/
theorem hoEx1_eval :
    HO.hoAntiUnify (.lam "x" (.app (.const "f") (.var "x")))
        (.lam "x" (.app (.const "g") (.var "x"))) =
      (.lam "x" (.app (.var "F0") (.var "x")),
       [("F0", .app (.const "f") (.var "x"), .app (.const "g") (.var "x"))]) := by
  simp [HO.hoAntiUnify, HO.hoAu, HO.hoMismatch, HO.spine, HO.isConstHead,
    HO.applyCtx, HO.rebuildApp, HO.freshBoundName, HO.substBound, HO.fName,
    Nat.repr, Nat.toDigits, Nat.toDigitsCore, Nat.digitChar, List.asString]

/-- Evaluation of the higher-order engine on `λx. T (G x)` vs `λy. T (H y)`. -/
theorem hoEx2_eval :
    HO.hoAntiUnify (.lam "x" (.app (.const "T") (.app (.const "G") (.var "x"))))
        (.lam "y" (.app (.const "T") (.app (.const "H") (.var "y")))) =
      (.lam "z" (.app (.const "T") (.app (.var "F0") (.var "z"))),
       [("F0", .app (.const "G") (.var "z"), .app (.const "H") (.var "z"))]) := by
  simp [HO.hoAntiUnify, HO.hoAu, HO.hoAuArgs, HO.hoMismatch, HO.spine,
    HO.isConstHead, HO.applyCtx, HO.rebuildApp, HO.freshBoundName,
    HO.substBound, HO.fName, Nat.repr, Nat.toDigits, Nat.toDigitsCore,
    Nat.digitChar, List.asString]

/-- C1 counterexample: the claim fails as stated, on both engines. For the
first-order engine, inputs already containing the minted name `X0` break
the substitution property; for the higher-order engine, a mismatch under a
binder is generalized to `F0 x` while the environment stores the full
subterm pair, so plain substitution yields `λx. (f x) x`, not `λx. f x`. -/
theorem c1_counterexample :
    ¬ (FO.substEnvL
        (FO.antiUnifyTop (.func "f" [.var "X0", .const "a"])
          (.func "f" [.var "X0", .const "b"])).2
        (FO.antiUnifyTop (.func "f" [.var "X0", .const "a"])
          (.func "f" [.var "X0", .const "b"])).1
      = .func "f" [.var "X0", .const "a"]) ∧
    ¬ (HO.substHEnv Prod.fst
        (HO.hoAntiUnify (.lam "x" (.app (.const "f") (.var "x")))
          (.lam "x" (.app (.const "g") (.var "x")))).2
        (HO.hoAntiUnify (.lam "x" (.app (.const "f") (.var "x")))
          (.lam "x" (.app (.const "g") (.var "x")))).1
      = .lam "x" (.app (.const "f") (.var "x"))) := by
  constructor
  · rw [foCollision_eval]
    simp [FO.substEnvL, FO.substEnv, FO.substEnvs, FO.envLookup, List.find?]
  · rw [hoEx1_eval]
    simp [HO.substHEnv, HO.hEnvLookup, List.find?]

/-- C1 (amended): for the first-order engine, whenever no variable of
either input carries a minted name `X{i}`, substituting every environment
variable in the generalization by the left (resp. right) component of its
stored pair reconstructs the first (resp. second) input exactly. -/
theorem c1_instance_substitution (t1 t2 : FO.FTerm)
    (h1 : FO.GoodT t1) (h2 : FO.GoodT t2) :
    FO.substEnvL (FO.antiUnifyTop t1 t2).2 (FO.antiUnifyTop t1 t2).1 = t1 ∧
    FO.substEnvR (FO.antiUnifyTop t1 t2).2 (FO.antiUnifyTop t1 t2).1 = t2 := by
  obtain ⟨-, -, -, hsub⟩ := FO.auSpec t1 t2 0 []
  obtain ⟨-, hL, hR⟩ := hsub h1 h2 (FO.envInvNil 0)
  exact ⟨hL, hR⟩

/-- Witness for the amended C1 at the concrete pair `(a, b)`. -/
theorem c1_witness :
    FO.substEnvL (FO.antiUnifyTop (.const "a") (.const "b")).2
        (FO.antiUnifyTop (.const "a") (.const "b")).1 = .const "a" ∧
    FO.substEnvR (FO.antiUnifyTop (.const "a") (.const "b")).2
        (FO.antiUnifyTop (.const "a") (.const "b")).1 = .const "b" :=
  c1_instance_substitution (.const "a") (.const "b") FO.GoodT.const FO.GoodT.const

/-- C2 counterexample: the environment entry stores the α-renamed full
subterms `(f x, g x)`, not the bare constants `(f, g)`. -/
theorem c2_counterexample :
    HO.hoAntiUnify (.lam "x" (.app (.const "f") (.var "x")))
        (.lam "x" (.app (.const "g") (.var "x"))) ≠
      (.lam "x" (.app (.var "F0") (.var "x")),
       [("F0", .const "f", .const "g")]) := by
  rw [hoEx1_eval]
  simp

/-- C2 (amended): `ho_anti_unify(λx. f x, λx. g x)` returns the claimed
generalization `λx. F0 x`, but the single environment entry maps `F0` to
the pair of whole mismatched subterms `(f x, g x)`. -/
theorem c2_binder_mismatch :
    HO.hoAntiUnify (.lam "x" (.app (.const "f") (.var "x")))
        (.lam "x" (.app (.const "g") (.var "x"))) =
      (.lam "x" (.app (.var "F0") (.var "x")),
       [("F0", .app (.const "f") (.var "x"), .app (.const "g") (.var "x"))]) :=
  hoEx1_eval

/-- C3 counterexample: the environment entry stores `(G z, H z)` (with the
unified bound name `z`), not the bare constants `(G, H)`. -/
theorem c3_counterexample :
    HO.hoAntiUnify (.lam "x" (.app (.const "T") (.app (.const "G") (.var "x"))))
        (.lam "y" (.app (.const "T") (.app (.const "H") (.var "y")))) ≠
      (.lam "z" (.app (.const "T") (.app (.var "F0") (.var "z"))),
       [("F0", .const "G", .const "H")]) := by
  rw [hoEx2_eval]
  simp

/-- C3 (amended): `ho_anti_unify(λx. T (G x), λy. T (H y))` returns the
claimed generalization `λz. T (F0 z)` with one environment entry, but that
entry maps `F0` to the pair of whole mismatched subterms `(G z, H z)`. -/
theorem c3_cross_name_binder :
    HO.hoAntiUnify (.lam "x" (.app (.const "T") (.app (.const "G") (.var "x"))))
        (.lam "y" (.app (.const "T") (.app (.const "H") (.var "y")))) =
      (.lam "z" (.app (.const "T") (.app (.var "F0") (.var "z"))),
       [("F0", .app (.const "G") (.var "z"), .app (.const "H") (.var "z"))]) :=
  hoEx2_eval

/-- C4: identical inputs generalize to themselves with an empty
environment, in both engines. -/
theorem c4_reflexivity :
    (∀ t : FO.FTerm, FO.antiUnifyTop t t = (t, [])) ∧
    (∀ t : HO.HTerm, HO.hoAntiUnify t t = (t, [])) := by
  constructor
  · intro t
    simp [FO.antiUnifyTop, FO.antiUnify_eq_self]
  · intro t
    simp [HO.hoAntiUnify, HO.hoAu_eq_self]

/-- C5: identical mismatched subterm pairs at several positions are
generalized to the same variable: `anti_unify(f(a, a), f(b, b))` yields
`f(X0, X0)` with the single environment entry `X0 ↦ (a, b)`. -/
theorem c5_sharing :
    FO.antiUnifyTop (.func "f" [.const "a", .const "a"])
        (.func "f" [.const "b", .const "b"]) =
      (.func "f" [.var "X0", .var "X0"], [("X0", .const "a", .const "b")]) :=
  foSharing_eval

/-- C6: on unequal terms that are not function applications with the same
symbol and arity (in particular, on any head-symbol or arity mismatch), a
top-level call returns a single fresh variable `X0` whose only environment
entry is the whole pair `(t1, t2)` — no recursive descent happens. -/
theorem c6_top_level_mismatch (t1 t2 : FO.FTerm) (hne : t1 ≠ t2)
    (hmm : ∀ (s : String) (a1 a2 : List FO.FTerm),
      t1 = .func s a1 → t2 = .func s a2 → a1.length ≠ a2.length) :
    FO.antiUnifyTop t1 t2 = (.var "X0", [("X0", t1, t2)]) := by
  have hmis : FO.antiUnify t1 t2 0 [] = FO.auMismatch t1 t2 0 [] := by
    cases t1 <;> cases t2 <;>
      first
        | (refine FO.antiUnify_eq_func_mismatch ?_ hne 0 []
           rintro ⟨rfl, hlen⟩
           exact hmm _ _ _ rfl rfl hlen)
        | (exact FO.antiUnify_eq_mismatch
            (fun s a1 s2 a2 h1 h2 => by simp_all) hne 0 [])
  have hx : FO.xName 0 = "X0" := by
    simp [FO.xName, Nat.repr, Nat.toDigits, Nat.toDigitsCore, Nat.digitChar,
      List.asString]
  show ((FO.antiUnify t1 t2 0 []).1, (FO.antiUnify t1 t2 0 []).2.2) = _
  rw [hmis]
  simp [FO.auMismatch, List.find?, hx]

/-- Witness for C6 at the concrete pair `(a, b)` of distinct constants. -/
theorem c6_witness :
    FO.antiUnifyTop (.const "a") (.const "b") =
      (.var "X0", [("X0", .const "a", .const "b")]) :=
  c6_top_level_mismatch (.const "a") (.const "b") (by simp)
    (fun s a1 a2 h1 _ => by cases h1)

/-- C7: `anti_unify_list` fails with the length-mismatch error exactly when
the input lengths differ (producing no result at all), and on equal-length
inputs runs the position-wise loop with one shared counter and one shared
environment, producing one generalization per position. -/
theorem c7_list_length (ts1 ts2 : List FO.FTerm) :
    (FO.antiUnifyList ts1 ts2 =
        .error "Lists must have same length for anti_unify_list" ↔
      ts1.length ≠ ts2.length) ∧
    (ts1.length = ts2.length →
      FO.antiUnifyList ts1 ts2 =
        .ok ((FO.antiUnifyArgs ts1 ts2 0 []).1,
          (FO.antiUnifyArgs ts1 ts2 0 []).2.2) ∧
      (FO.antiUnifyArgs ts1 ts2 0 []).1.length = ts1.length) := by
  by_cases hl : ts1.length = ts2.length
  · refine ⟨⟨?_, ?_⟩, ?_⟩
    · intro h
      rw [FO.antiUnifyList, if_neg (not_not_intro hl)] at h
      cases h
    · intro hne
      exact absurd hl hne
    · intro _
      refine ⟨?_, FO.antiUnifyArgs_length ts1 ts2 0 [] hl⟩
      rw [FO.antiUnifyList, if_neg (not_not_intro hl)]
  · refine ⟨⟨?_, ?_⟩, ?_⟩
    · intro _
      exact hl
    · intro _
      rw [FO.antiUnifyList, if_pos hl]
    · intro h
      exact absurd h hl

/-- Witness for C7: a length-one list against a length-two list fails with
the exact `ValueError` message. -/
theorem c7_witness :
    FO.antiUnifyList [FO.FTerm.const "a"]
        [FO.FTerm.const "a", FO.FTerm.const "b"] =
      .error "Lists must have same length for anti_unify_list" :=
  (c7_list_length [.const "a"] [.const "a", .const "b"]).1.mpr (by simp)

/-- C8: `_subst_bound` replaces a matching free variable, leaves constants
and non-matching variables unchanged, recurses into both sides of an
application, stops at a lambda rebinding the same name (leaving the
shadowed subtree untouched), and eliminates every free occurrence of the
replaced name. -/
theorem c8_subst_bound :
    (∀ (old v : String), HO.substBound (.var old) old v = .var v) ∧
    (∀ (n old v : String), n ≠ old → HO.substBound (.var n) old v = .var n) ∧
    (∀ (n old v : String), HO.substBound (.const n) old v = .const n) ∧
    (∀ (f a : HO.HTerm) (old v : String),
      HO.substBound (.app f a) old v =
        .app (HO.substBound f old v) (HO.substBound a old v)) ∧
    (∀ (b : HO.HTerm) (old v : String),
      HO.substBound (.lam old b) old v = .lam old b) ∧
    (∀ (x : String) (b : HO.HTerm) (old v : String), x ≠ old →
      HO.substBound (.lam x b) old v = .lam x (HO.substBound b old v)) ∧
    (∀ (t : HO.HTerm) (old v : String), v ≠ old →
      HO.occursFree old (HO.substBound t old v) = false) := by
  refine ⟨?_, ?_, ?_, ?_, ?_, ?_, ?_⟩
  · intro old v; simp [HO.substBound]
  · intro n old v h; simp [HO.substBound, h]
  · intro n old v; simp [HO.substBound]
  · intro f a old v; simp [HO.substBound]
  · intro b old v; simp [HO.substBound]
  · intro x b old v h; simp [HO.substBound, h]
  · intro t old v hv
    induction t with
    | var n =>
      by_cases h : n = old
      · subst h; simp [HO.substBound, HO.occursFree, hv]
      · simp [HO.substBound, HO.occursFree, h]
    | const n => simp [HO.substBound, HO.occursFree]
    | app f a ihf iha => simp [HO.substBound, HO.occursFree, ihf, iha]
    | lam x b ih =>
      by_cases h : x = old
      · subst h; simp [HO.substBound, HO.occursFree]
      · simp [HO.substBound, HO.occursFree, h, ih]

/-- Witness for C8: a shadowed occurrence survives only under its own
binder, and substitution eliminates the free occurrences. -/
theorem c8_witness :
    HO.substBound (.lam "y" (.var "x")) "x" "z" =
      .lam "y" (HO.substBound (.var "x") "x" "z") ∧
    HO.occursFree "x"
      (HO.substBound (.app (.var "x") (.lam "x" (.var "x"))) "x" "z") = false :=
  ⟨c8_subst_bound.2.2.2.2.2.1 "y" (.var "x") "x" "z" (by simp),
   c8_subst_bound.2.2.2.2.2.2 (.app (.var "x") (.lam "x" (.var "x"))) "x" "z"
     (by simp)⟩

/-- C9: both engines are deterministic functions of their input pair: calls
on structurally equal inputs return structurally equal results, and every
top-level call starts from its own fresh counter, empty environment (and,
for the higher-order engine, empty binder context). -/
theorem c9_determinism (t1 t2 u1 u2 : FO.FTerm) (s1 s2 r1 r2 : HO.HTerm)
    (hf1 : t1 = u1) (hf2 : t2 = u2) (hh1 : s1 = r1) (hh2 : s2 = r2) :
    FO.antiUnifyTop t1 t2 = FO.antiUnifyTop u1 u2 ∧
    HO.hoAntiUnify s1 s2 = HO.hoAntiUnify r1 r2 ∧
    FO.antiUnifyTop t1 t2 =
      ((FO.antiUnify t1 t2 0 []).1, (FO.antiUnify t1 t2 0 []).2.2) ∧
    HO.hoAntiUnify s1 s2 =
      ((HO.hoAu s1 s2 [] 0 []).1, (HO.hoAu s1 s2 [] 0 []).2.2) := by
  subst hf1
  subst hf2
  subst hh1
  subst hh2
  exact ⟨rfl, rfl, rfl, rfl⟩

/-- Witness for C9 at concrete inputs. -/
theorem c9_witness :
    FO.antiUnifyTop (.const "a") (.const "b") =
      FO.antiUnifyTop (.const "a") (.const "b") ∧
    HO.hoAntiUnify (.var "x") (.var "y") =
      HO.hoAntiUnify (.var "x") (.var "y") ∧
    FO.antiUnifyTop (.const "a") (.const "b") =
      ((FO.antiUnify (.const "a") (.const "b") 0 []).1,
       (FO.antiUnify (.const "a") (.const "b") 0 []).2.2) ∧
    HO.hoAntiUnify (.var "x") (.var "y") =
      ((HO.hoAu (.var "x") (.var "y") [] 0 []).1,
       (HO.hoAu (.var "x") (.var "y") [] 0 []).2.2) :=
  c9_determinism (.const "a") (.const "b") (.const "a") (.const "b")
    (.var "x") (.var "y") (.var "x") (.var "y") rfl rfl rfl rfl

/-- C10: within one top-level call of either engine, the environment keys
are minted names with strictly increasing counter indices, hence pairwise
distinct; each fresh variable is bound to exactly one subterm pair and no
entry is ever overwritten. -/
theorem c10_fresh_keys (t1 t2 : FO.FTerm) (s1 s2 : HO.HTerm) :
    (∃ idxs : List Nat,
      (FO.antiUnifyTop t1 t2).2.map (·.1) = idxs.map FO.xName ∧
      idxs.Pairwise (· < ·)) ∧
    ((FO.antiUnifyTop t1 t2).2.map (·.1)).Nodup ∧
    (∃ idxs : List Nat,
      (HO.hoAntiUnify s1 s2).2.map (·.1) = idxs.map HO.fName ∧
      idxs.Pairwise (· < ·)) ∧
    ((HO.hoAntiUnify s1 s2).2.map (·.1)).Nodup := by
  obtain ⟨-, -, hinvF, -⟩ := FO.auSpec t1 t2 0 []
  obtain ⟨-, -, hinvH⟩ := HO.hoSpec s1 s2 [] 0 []
  have hF := hinvF (FO.envInvNil 0)
  have hH := hinvH (HO.hEnvInvNil 0)
  refine ⟨?_, FO.envInvKeysNodup hF, ?_, HO.hEnvInvKeysNodup hH⟩
  · obtain ⟨idxs, hm, hp, -⟩ := hF
    exact ⟨idxs, hm, hp⟩
  · obtain ⟨idxs, hm, hp, -⟩ := hH
    exact ⟨idxs, hm, hp⟩
